import Mathlib

/-!
Verification of the route-ordering engine of the tony-rutas-capacitor
repository.

The engine (src/unnamed/part_001, with near-duplicate variants in
src/src/App.jsx and src/unnamed/part_004) consists of:

* `haversine` — great-circle distance in km between two lat/lon points;
* `routeDistance` — one-way path length origin → stop₁ → … → stopₙ;
* `nearestNeighbor` — greedy tour construction from a fixed origin;
* `twoOpt` — 2-opt local search (first-improvement, total-route-length
  acceptance test with a 1e-9 km threshold in part_001);
* `optimizeRoute` — nearest neighbor followed by 2-opt;
* `googleMapsDirLink` / `openInGoogleMaps` — the only "batching": a single
  request built from `stops.slice(0, 9)`;
* `addPackage` — stop construction from a geocoder hit.

Numbers are modelled as real numbers (the JS engine uses doubles; the
claims under study are about the mathematical algorithm, not float
rounding).  Arrays are Lean lists.  Functions that branch on real-number
comparisons are noncomputable (ℝ has no computable order), so concrete
evaluations in witnesses are done by rewriting with proved equations
rather than by `decide`.
-/

/-- A geographic point.  The engine reads exactly the `lat` and `lon`
fields of a stop object (degrees); all other fields (id, name, address,
displayName, …) are carried through untouched and are irrelevant to the
route computation. -/
structure Pt where
  lat : ℝ
  lon : ℝ

/-- Earth radius in km: `const R = 6371` in the source. -/
def R : ℝ := 6371

/-- Source part_001 lines 82-91:

    function haversine(a, b) {
      const dLat = ((b.lat - a.lat) * Math.PI) / 180;
      const dLon = ((b.lon - a.lon) * Math.PI) / 180;
      const la1 = (a.lat * Math.PI) / 180;
      const la2 = (b.lat * Math.PI) / 180;
      const sinDLat = Math.sin(dLat / 2);
      const sinDLon = Math.sin(dLon / 2);
      const h = sinDLat * sinDLat + Math.cos(la1) * Math.cos(la2) * sinDLon * sinDLon;
      return 2 * R * Math.asin(Math.sqrt(h));
    }
-/
noncomputable def haversine (a b : Pt) : ℝ :=
  let dLat := (b.lat - a.lat) * Real.pi / 180
  let dLon := (b.lon - a.lon) * Real.pi / 180
  let la1 := a.lat * Real.pi / 180
  let la2 := b.lat * Real.pi / 180
  let sinDLat := Real.sin (dLat / 2)
  let sinDLon := Real.sin (dLon / 2)
  let h := sinDLat * sinDLat + Real.cos la1 * Real.cos la2 * sinDLon * sinDLon
  2 * R * Real.arcsin (Real.sqrt h)

theorem haversine_nonneg (a b : Pt) : 0 ≤ haversine a b := by
  unfold haversine
  dsimp only
  exact mul_nonneg (mul_nonneg (by norm_num) (by norm_num [R]))
    (Real.arcsin_nonneg.mpr (Real.sqrt_nonneg _))

/-- Source part_001 lines 93-102: sums `haversine` over consecutive points
of the open path `origin → stops[0] → … → stops[n-1]`; there is no return
leg, and the empty list gives 0 (the `!origin` early return is not modelled:
the origin is always present here). -/
noncomputable def routeDistance (origin : Pt) : List Pt → ℝ
  | [] => 0
  | p :: ps => haversine origin p + routeDistance p ps

theorem routeDistance_nonneg (origin : Pt) (stops : List Pt) :
    0 ≤ routeDistance origin stops := by
  induction stops generalizing origin with
  | nil => simp [routeDistance]
  | cons p ps ih =>
    have := haversine_nonneg origin p
    have := ih p
    simp only [routeDistance]
    linarith

/-- Inner scan of `nearestNeighbor` (part_001 lines 110-118) and of
`optimizeOrder` (src/src/App.jsx lines 674-680): running best index and
best distance, updated on a strict `<`.  The JS loop starts with
`bestDist = Infinity`, so the first element always becomes the initial
best (every real distance is below Infinity); the accumulator here is
started there, which is the same scan. -/
noncomputable def bestIdxAux (cur : Pt) : List Pt → Nat → Nat × ℝ → Nat × ℝ
  | [], _, acc => acc
  | p :: ps, i, acc =>
      bestIdxAux cur ps (i + 1)
        (if haversine cur p < acc.2 then (i, haversine cur p) else acc)

/-- Index selected by the nearest-neighbor scan over `remaining`. -/
noncomputable def bestIdx (cur : Pt) : List Pt → Nat
  | [] => 0
  | p :: ps => (bestIdxAux cur ps 1 (0, haversine cur p)).1

theorem bestIdxAux_fst_lt (cur : Pt) :
    ∀ (l : List Pt) (i : Nat) (acc : Nat × ℝ) (n : Nat),
      acc.1 < n → i + l.length ≤ n → (bestIdxAux cur l i acc).1 < n := by
  intro l
  induction l with
  | nil => intro i acc n hacc _; simpa [bestIdxAux] using hacc
  | cons p ps ih =>
    intro i acc n hacc hlen
    simp only [bestIdxAux]
    apply ih
    · by_cases h : haversine cur p < acc.2
      · simp only [h, if_pos]
        simp only [List.length_cons] at hlen
        omega
      · simpa [h] using hacc
    · simp only [List.length_cons] at hlen
      omega

theorem bestIdx_lt (cur : Pt) (l : List Pt) (h : l ≠ []) :
    bestIdx cur l < l.length := by
  cases l with
  | nil => exact absurd rfl h
  | cons p ps =>
    simp only [bestIdx, List.length_cons]
    exact bestIdxAux_fst_lt cur ps 1 (0, haversine cur p) (ps.length + 1)
      (by omega) (by omega)

theorem eraseIdx_bestIdx_length (cur x : Pt) (xs : List Pt) :
    ((x :: xs).eraseIdx (bestIdx cur (x :: xs))).length < (x :: xs).length := by
  have hi : bestIdx cur (x :: xs) < (x :: xs).length :=
    bestIdx_lt cur (x :: xs) (by simp)
  rw [List.length_eraseIdx]
  simp only [hi, if_pos]
  simp only [List.length_cons] at hi ⊢
  omega

/-- Loop body of `nearestNeighbor` (part_001 lines 109-122): pick the
scan-selected stop, remove it from the remaining list, append it to the
output and continue from it.  (`remaining.splice(bestIdx, 1)[0]` is the
element at `bestIdx`, and the splice removes exactly that element.) -/
noncomputable def nnGo (cur : Pt) (rem : List Pt) : List Pt :=
  match rem with
  | [] => []
  | x :: xs =>
      (x :: xs).getD (bestIdx cur (x :: xs)) x ::
        nnGo ((x :: xs).getD (bestIdx cur (x :: xs)) x)
          ((x :: xs).eraseIdx (bestIdx cur (x :: xs)))
termination_by rem.length
decreasing_by
  apply eraseIdx_bestIdx_length

/-- Source part_001 lines 105-124.  `const remaining = stops.slice()`
copies the input; the loop then works on that copy. -/
noncomputable def nearestNeighbor (origin : Pt) (stops : List Pt) : List Pt :=
  nnGo origin stops

theorem getD_cons_eraseIdx_perm (d : Pt) :
    ∀ (l : List Pt) (i : Nat), i < l.length →
      List.Perm (l.getD i d :: l.eraseIdx i) l := by
  intro l
  induction l with
  | nil => intro i h; simp at h
  | cons x xs ih =>
    intro i h
    cases i with
    | zero => simp [List.eraseIdx]
    | succ j =>
      simp only [List.length_cons] at h
      have hj : j < xs.length := by omega
      have step := ih j hj
      have h1 : (x :: xs).getD (j + 1) d :: (x :: xs).eraseIdx (j + 1)
          = xs.getD j d :: x :: xs.eraseIdx j := by
        simp [List.getD_cons_succ, List.eraseIdx_cons_succ]
      rw [h1]
      exact (List.Perm.swap x (xs.getD j d) (xs.eraseIdx j)).trans
        (List.Perm.cons x step)

theorem nnGo_perm (cur : Pt) (rem : List Pt) : List.Perm (nnGo cur rem) rem := by
  induction cur, rem using nnGo.induct with
  | case1 cur => simp [nnGo]
  | case2 cur x xs ih =>
    rw [nnGo]
    exact List.Perm.trans (List.Perm.cons _ ih)
      (getD_cons_eraseIdx_perm x (x :: xs) (bestIdx cur (x :: xs))
        (bestIdx_lt cur (x :: xs) (by simp)))

theorem nearestNeighbor_perm (origin : Pt) (stops : List Pt) :
    List.Perm (nearestNeighbor origin stops) stops :=
  nnGo_perm origin stops

/-- One candidate 2-opt reversal (part_001 line 137):
`best.slice(0, i+1).concat(best.slice(i+1, k+1).reverse(), best.slice(k+1))`.
The middle slice is written `(drop (i+1)).take (k-i)` and the tail
`(drop (i+1)).drop (k-i)`; these equal the JS slices `slice(i+1, k+1)` and
`slice(k+1)` whenever `i ≤ k`, and the loops only call this with `i < k`.
Written this way the length is preserved for all index values. -/
def reverseSeg (l : List Pt) (i k : Nat) : List Pt :=
  l.take (i + 1) ++ ((l.drop (i + 1)).take (k - i)).reverse
    ++ ((l.drop (i + 1)).drop (k - i))

theorem reverseSeg_length (l : List Pt) (i k : Nat) :
    (reverseSeg l i k).length = l.length := by
  simp [reverseSeg]
  omega

theorem reverseSeg_perm (l : List Pt) (i k : Nat) :
    List.Perm (reverseSeg l i k) l := by
  rw [reverseSeg, List.append_assoc]
  conv_rhs => rw [← List.take_append_drop (i + 1) l,
    ← List.take_append_drop (k - i) (l.drop (i + 1))]
  exact List.Perm.append_left _
    (List.Perm.append (List.reverse_perm _) (List.Perm.refl _))

/-- Inner `for k` loop of `twoOpt` (part_001 lines 136-142), threading the
current best route and the `improved` flag.  The acceptance test is the
literal source test `routeDistance(origin, newRoute) + 1e-9 < baseDist()`,
where `baseDist()` recomputes the route distance of the current best. -/
noncomputable def passK (origin : Pt) (best : List Pt) (i k : Nat) (improved : Bool) :
    List Pt × Bool :=
  if h : k < best.length - 1 then
    if routeDistance origin (reverseSeg best i k) + 1e-9 < routeDistance origin best then
      passK origin (reverseSeg best i k) i (k + 1) true
    else
      passK origin best i (k + 1) improved
  else
    (best, improved)
termination_by best.length - k
decreasing_by
  · rw [reverseSeg_length]; omega
  · omega

theorem passK_length (origin : Pt) (i : Nat) :
    ∀ (best : List Pt) (k : Nat) (improved : Bool),
      ((passK origin best i k improved).1).length = best.length := by
  intro best k improved
  induction best, i, k, improved using passK.induct with
  | origin => exact origin
  | case1 best i2 k improved h h2 ih =>
    rw [passK, dif_pos h, if_pos h2, ih, reverseSeg_length]
  | case2 best i2 k improved h h2 ih =>
    rw [passK, dif_pos h, if_neg h2, ih]
  | case3 best i2 k improved h =>
    rw [passK, dif_neg h]

theorem passK_perm (origin : Pt) (i : Nat) :
    ∀ (best : List Pt) (k : Nat) (improved : Bool),
      List.Perm (passK origin best i k improved).1 best := by
  intro best k improved
  induction best, i, k, improved using passK.induct with
  | origin => exact origin
  | case1 best i2 k improved h h2 ih =>
    rw [passK, dif_pos h, if_pos h2]
    exact ih.trans (reverseSeg_perm best i2 k)
  | case2 best i2 k improved h h2 ih =>
    rw [passK, dif_pos h, if_neg h2]
    exact ih
  | case3 best i2 k improved h =>
    rw [passK, dif_neg h]

theorem passK_rd_le (origin : Pt) (i : Nat) :
    ∀ (best : List Pt) (k : Nat) (improved : Bool),
      routeDistance origin (passK origin best i k improved).1
        ≤ routeDistance origin best := by
  intro best k improved
  induction best, i, k, improved using passK.induct with
  | origin => exact origin
  | case1 best i2 k improved h h2 ih =>
    rw [passK, dif_pos h, if_pos h2]
    have he : (0:ℝ) < 1e-9 := by norm_num
    linarith
  | case2 best i2 k improved h h2 ih =>
    rw [passK, dif_pos h, if_neg h2]
    exact ih
  | case3 best i2 k improved h =>
    rw [passK, dif_neg h]

theorem passK_flag (origin : Pt) (i : Nat) :
    ∀ (best : List Pt) (k : Nat) (improved : Bool), improved = true →
      (passK origin best i k improved).2 = true := by
  intro best k improved
  induction best, i, k, improved using passK.induct with
  | origin => exact origin
  | case1 best i2 k improved h h2 ih =>
    intro _
    rw [passK, dif_pos h, if_pos h2]
    exact ih rfl
  | case2 best i2 k improved h h2 ih =>
    intro himp
    rw [passK, dif_pos h, if_neg h2]
    exact ih himp
  | case3 best i2 k improved h =>
    intro himp
    rw [passK, dif_neg h]
    exact himp

theorem passK_decrease (origin : Pt) (i : Nat) :
    ∀ (best : List Pt) (k : Nat) (improved : Bool),
      (passK origin best i k improved).2 = true →
        improved = true ∨
          routeDistance origin (passK origin best i k improved).1 + 1e-9
            ≤ routeDistance origin best := by
  intro best k improved
  induction best, i, k, improved using passK.induct with
  | origin => exact origin
  | case1 best i2 k improved h h2 ih =>
    intro _
    right
    have hle := passK_rd_le origin i2 (reverseSeg best i2 k) (k + 1) true
    rw [passK, dif_pos h, if_pos h2]
    linarith
  | case2 best i2 k improved h h2 ih =>
    intro hf
    rw [passK, dif_pos h, if_neg h2] at hf ⊢
    exact ih hf
  | case3 best i2 k improved h =>
    intro hf
    rw [passK, dif_neg h] at hf ⊢
    left
    simpa using hf

theorem passK_noaccept (origin : Pt) (i : Nat) :
    ∀ (best : List Pt) (k : Nat) (improved : Bool), improved = false →
      (passK origin best i k improved).2 = false →
        (passK origin best i k improved).1 = best ∧
          ∀ kk : Nat, k ≤ kk → kk < best.length - 1 →
            ¬ (routeDistance origin (reverseSeg best i kk) + 1e-9
                < routeDistance origin best) := by
  intro best k improved
  induction best, i, k, improved using passK.induct with
  | origin => exact origin
  | case1 best i2 k improved h h2 ih =>
    intro _ hf
    exfalso
    rw [passK, dif_pos h, if_pos h2,
      passK_flag origin i2 (reverseSeg best i2 k) (k + 1) true rfl] at hf
    simp at hf
  | case2 best i2 k improved h h2 ih =>
    intro himp hf
    rw [passK, dif_pos h, if_neg h2] at hf ⊢
    obtain ⟨he, hrest⟩ := ih himp hf
    refine ⟨he, fun kk hk1 hk2 => ?_⟩
    rcases Nat.eq_or_lt_of_le hk1 with heq | hlt
    · rw [← heq]
      exact h2
    · exact hrest kk hlt hk2
  | case3 best i2 k improved h =>
    intro himp hf
    rw [passK, dif_neg h]
    exact ⟨rfl, fun kk hk1 hk2 => by exfalso; omega⟩

/-- Outer `for i` loop of `twoOpt` (part_001 lines 135-143): run the inner
`for k` scan starting at `k = i + 1`, then continue with the next `i` on
whatever route the inner scan produced.  (The loop bounds re-read
`best.length`; every candidate route has the same length, so the bound is
stable — `passK_length` / `passI_length`.) -/
noncomputable def passI (origin : Pt) (best : List Pt) (i : Nat) (improved : Bool) :
    List Pt × Bool :=
  if h : i < best.length - 2 then
    passI origin (passK origin best i (i + 1) improved).1 (i + 1)
      (passK origin best i (i + 1) improved).2
  else
    (best, improved)
termination_by best.length - i
decreasing_by
  rw [passK_length]
  omega

theorem passI_length (origin : Pt) :
    ∀ (best : List Pt) (i : Nat) (improved : Bool),
      ((passI origin best i improved).1).length = best.length := by
  intro best i improved
  induction best, i, improved using passI.induct with
  | origin => exact origin
  | case1 best i improved h ih =>
    rw [passI, dif_pos h, ih, passK_length]
  | case2 best i improved h =>
    rw [passI, dif_neg h]

theorem passI_perm (origin : Pt) :
    ∀ (best : List Pt) (i : Nat) (improved : Bool),
      List.Perm (passI origin best i improved).1 best := by
  intro best i improved
  induction best, i, improved using passI.induct with
  | origin => exact origin
  | case1 best i improved h ih =>
    rw [passI, dif_pos h]
    exact ih.trans (passK_perm origin i best (i + 1) improved)
  | case2 best i improved h =>
    rw [passI, dif_neg h]

theorem passI_rd_le (origin : Pt) :
    ∀ (best : List Pt) (i : Nat) (improved : Bool),
      routeDistance origin (passI origin best i improved).1
        ≤ routeDistance origin best := by
  intro best i improved
  induction best, i, improved using passI.induct with
  | origin => exact origin
  | case1 best i improved h ih =>
    rw [passI, dif_pos h]
    exact le_trans ih (passK_rd_le origin i best (i + 1) improved)
  | case2 best i improved h =>
    rw [passI, dif_neg h]

theorem passI_flag (origin : Pt) :
    ∀ (best : List Pt) (i : Nat) (improved : Bool), improved = true →
      (passI origin best i improved).2 = true := by
  intro best i improved
  induction best, i, improved using passI.induct with
  | origin => exact origin
  | case1 best i improved h ih =>
    intro himp
    rw [passI, dif_pos h]
    exact ih (passK_flag origin i best (i + 1) improved himp)
  | case2 best i improved h =>
    intro himp
    rw [passI, dif_neg h]
    exact himp

theorem passI_decrease (origin : Pt) :
    ∀ (best : List Pt) (i : Nat) (improved : Bool),
      (passI origin best i improved).2 = true →
        improved = true ∨
          routeDistance origin (passI origin best i improved).1 + 1e-9
            ≤ routeDistance origin best := by
  intro best i improved
  induction best, i, improved using passI.induct with
  | origin => exact origin
  | case1 best i improved h ih =>
    intro hf
    rw [passI, dif_pos h] at hf ⊢
    rcases ih hf with hflag | hle
    · rcases passK_decrease origin i best (i + 1) improved hflag with he | hle2
      · exact Or.inl he
      · right
        have hle3 := passI_rd_le origin (passK origin best i (i + 1) improved).1
          (i + 1) (passK origin best i (i + 1) improved).2
        linarith
    · right
      have hle2 := passK_rd_le origin i best (i + 1) improved
      linarith
  | case2 best i improved h =>
    intro hf
    rw [passI, dif_neg h] at hf ⊢
    left
    simpa using hf

theorem passI_noimp (origin : Pt) :
    ∀ (best : List Pt) (i : Nat) (improved : Bool), improved = false →
      (passI origin best i improved).2 = false →
        (passI origin best i improved).1 = best ∧
          ∀ ii kk : Nat, i ≤ ii → ii < best.length - 2 → ii + 1 ≤ kk →
            kk < best.length - 1 →
              ¬ (routeDistance origin (reverseSeg best ii kk) + 1e-9
                  < routeDistance origin best) := by
  intro best i improved
  induction best, i, improved using passI.induct with
  | origin => exact origin
  | case1 best i improved h ih =>
    intro himp hf
    rw [passI, dif_pos h] at hf ⊢
    have hkflag : (passK origin best i (i + 1) improved).2 = false := by
      by_contra hc
      rw [Bool.not_eq_false] at hc
      rw [passI_flag origin (passK origin best i (i + 1) improved).1 (i + 1)
        (passK origin best i (i + 1) improved).2 hc] at hf
      simp at hf
    obtain ⟨hkeq, hkrow⟩ := passK_noaccept origin i best (i + 1) improved himp hkflag
    rw [hkeq, hkflag] at ih hf ⊢
    obtain ⟨hieq, hirow⟩ := ih rfl hf
    refine ⟨hieq, fun ii kk hii hibound hk1 hk2 => ?_⟩
    rcases Nat.eq_or_lt_of_le hii with heq | hlt
    · subst heq
      exact hkrow kk hk1 hk2
    · exact hirow ii kk hlt hibound hk1 hk2
  | case2 best i improved h =>
    intro himp hf
    rw [passI, dif_neg h]
    exact ⟨rfl, fun ii kk hii hibound hk1 hk2 => by exfalso; omega⟩

/-- Outer `while (improved)` loop of `twoOpt` (part_001 lines 133-144):
run a full scan from a cleared flag; if the scan improved anything, scan
again on the new best route.  Termination: a scan that sets the flag made
at least one accepted move, and every accepted move shrinks the route
length by more than 1e-9 km (`passI_decrease`), so the natural number
`Nat.ceil (routeDistance * 1e9)` strictly decreases. -/
noncomputable def twoOptLoop (origin : Pt) (best : List Pt) : List Pt :=
  if h : (passI origin best 0 false).2 = true then
    twoOptLoop origin (passI origin best 0 false).1
  else
    (passI origin best 0 false).1
termination_by Nat.ceil (routeDistance origin best * 1000000000)
decreasing_by
  rcases passI_decrease origin best 0 false h with hc | hle
  · simp at hc
  · have h0 : 0 ≤ routeDistance origin (passI origin best 0 false).1 :=
      routeDistance_nonneg origin _
    have hy : (1:ℝ) ≤ routeDistance origin best * 1000000000 := by nlinarith
    have hxy : routeDistance origin (passI origin best 0 false).1 * 1000000000
        ≤ routeDistance origin best * 1000000000 - 1 := by nlinarith
    have hpos : 0 < Nat.ceil (routeDistance origin best * 1000000000) :=
      Nat.ceil_pos.mpr (by linarith)
    have hcast : ((Nat.ceil (routeDistance origin best * 1000000000) - 1 : Nat) : ℝ)
        = (Nat.ceil (routeDistance origin best * 1000000000) : ℝ) - 1 := by
      push_cast [Nat.cast_sub (by omega : 1 ≤ Nat.ceil (routeDistance origin best * 1000000000))]
      ring
    have hceil : Nat.ceil (routeDistance origin (passI origin best 0 false).1 * 1000000000)
        ≤ Nat.ceil (routeDistance origin best * 1000000000) - 1 := by
      rw [Nat.ceil_le, hcast]
      have := Nat.le_ceil (routeDistance origin best * 1000000000)
      linarith
    omega

theorem twoOptLoop_perm (origin : Pt) :
    ∀ best : List Pt, List.Perm (twoOptLoop origin best) best := by
  intro best
  induction best using twoOptLoop.induct with
  | origin => exact origin
  | case1 best h ih =>
    rw [twoOptLoop, dif_pos h]
    exact ih.trans (passI_perm origin best 0 false)
  | case2 best h =>
    rw [twoOptLoop, dif_neg h]
    exact passI_perm origin best 0 false

theorem twoOptLoop_rd_le (origin : Pt) :
    ∀ best : List Pt,
      routeDistance origin (twoOptLoop origin best) ≤ routeDistance origin best := by
  intro best
  induction best using twoOptLoop.induct with
  | origin => exact origin
  | case1 best h ih =>
    rw [twoOptLoop, dif_pos h]
    exact le_trans ih (passI_rd_le origin best 0 false)
  | case2 best h =>
    rw [twoOptLoop, dif_neg h]
    exact passI_rd_le origin best 0 false

theorem twoOptLoop_fix (origin : Pt) :
    ∀ best : List Pt,
      passI origin (twoOptLoop origin best) 0 false = (twoOptLoop origin best, false) := by
  intro best
  induction best using twoOptLoop.induct with
  | origin => exact origin
  | case1 best h ih =>
    rw [twoOptLoop, dif_pos h]
    exact ih
  | case2 best h =>
    rw [twoOptLoop, dif_neg h]
    have hff : (passI origin best 0 false).2 = false := by simpa using h
    obtain ⟨heq, _⟩ := passI_noimp origin best 0 false rfl hff
    have hpair : passI origin best 0 false = (best, false) := by
      rw [Prod.ext_iff]
      exact ⟨heq, hff⟩
    rw [heq]
    exact hpair

/-- Source part_001 lines 127-146: fewer than 3 stops are returned as a
copy; otherwise the improvement loop runs to quiescence. -/
noncomputable def twoOpt (origin : Pt) (stops : List Pt) : List Pt :=
  if stops.length < 3 then stops else twoOptLoop origin stops

theorem twoOpt_perm (origin : Pt) (stops : List Pt) :
    List.Perm (twoOpt origin stops) stops := by
  rw [twoOpt]
  by_cases h : stops.length < 3
  · rw [if_pos h]
  · rw [if_neg h]
    exact twoOptLoop_perm origin stops

theorem twoOpt_length (origin : Pt) (stops : List Pt) :
    (twoOpt origin stops).length = stops.length :=
  (twoOpt_perm origin stops).length_eq

/-- Fuel-indexed mirror of the `while (improved)` loop: `none` means the
fuel ran out before the loop reached a scan with no improvement.  Used to
state that the loop terminates (claim C6). -/
noncomputable def twoOptFuelLoop (origin : Pt) : Nat → List Pt → Option (List Pt)
  | 0, _ => none
  | n + 1, best =>
      if (passI origin best 0 false).2 = true then
        twoOptFuelLoop origin n (passI origin best 0 false).1
      else
        some (passI origin best 0 false).1

/-- Fuel-indexed mirror of `twoOpt`. -/
noncomputable def twoOptFuel (origin : Pt) (n : Nat) (stops : List Pt) :
    Option (List Pt) :=
  if stops.length < 3 then some stops else twoOptFuelLoop origin n stops

theorem twoOptLoop_fuel (origin : Pt) :
    ∀ best : List Pt,
      ∃ n, twoOptFuelLoop origin n best = some (twoOptLoop origin best) := by
  intro best
  induction best using twoOptLoop.induct with
  | origin => exact origin
  | case1 best h ih =>
    obtain ⟨n, hn⟩ := ih
    refine ⟨n + 1, ?_⟩
    conv_rhs => rw [twoOptLoop, dif_pos h]
    simp only [twoOptFuelLoop]
    rw [if_pos h, hn]
  | case2 best h =>
    refine ⟨1, ?_⟩
    conv_rhs => rw [twoOptLoop, dif_neg h]
    simp only [twoOptFuelLoop]
    rw [if_neg h]

/-- Source part_001 lines 148-153 (`optimizeRoute`): fewer than 2 stops
(or a missing origin, not modelled — the origin is always present here)
returns a copy; otherwise nearest-neighbor construction then 2-opt
refinement. -/
noncomputable def optimizeRoute (origin : Pt) (stops : List Pt) : List Pt :=
  if stops.length < 2 then stops
  else twoOpt origin (nearestNeighbor origin stops)

theorem haversine_self (a : Pt) : haversine a a = 0 := by
  unfold haversine
  dsimp only
  simp

theorem haversine_comm (a b : Pt) : haversine a b = haversine b a := by
  unfold haversine
  dsimp only
  rw [show (a.lat - b.lat) * Real.pi / 180 / 2
        = -((b.lat - a.lat) * Real.pi / 180 / 2) from by ring,
    show (a.lon - b.lon) * Real.pi / 180 / 2
        = -((b.lon - a.lon) * Real.pi / 180 / 2) from by ring,
    Real.sin_neg, Real.sin_neg]
  ring_nf

/-- Claim C7: for in-range coordinates the distance metric is symmetric,
and the distance from a point to itself is zero.  (Both facts hold for the
source `haversine` without any range restriction; the range hypotheses
mirror the claim.) -/
theorem haversine_symm_self (a b : Pt)
    (ha1 : -90 ≤ a.lat) (ha2 : a.lat ≤ 90) (ha3 : -180 ≤ a.lon) (ha4 : a.lon ≤ 180)
    (hb1 : -90 ≤ b.lat) (hb2 : b.lat ≤ 90) (hb3 : -180 ≤ b.lon) (hb4 : b.lon ≤ 180) :
    haversine a b = haversine b a ∧ haversine a a = 0 :=
  ⟨haversine_comm a b, haversine_self a⟩

theorem haversine_symm_self_witness :
    (-90 ≤ (0:ℝ) ∧ (0:ℝ) ≤ 90 ∧ -180 ≤ (0:ℝ) ∧ (0:ℝ) ≤ 180 ∧
      -180 ≤ (1:ℝ) ∧ (1:ℝ) ≤ 180) ∧
    (haversine ⟨0, 0⟩ ⟨0, 1⟩ = haversine ⟨0, 1⟩ ⟨0, 0⟩ ∧
      haversine ⟨0, 0⟩ ⟨0, 0⟩ = 0) :=
  ⟨by norm_num,
    haversine_symm_self ⟨0, 0⟩ ⟨0, 1⟩ (by norm_num) (by norm_num) (by norm_num)
      (by norm_num) (by norm_num) (by norm_num) (by norm_num) (by norm_num)⟩

/-- Claim C8: `routeDistance` is exactly the sum of `haversine` over the
consecutive pairs of the open path `origin :: stops` (the pairs are
`(origin, stops[0]), (stops[0], stops[1]), …`); no return leg to the origin
is added, and the empty tour gives 0. -/
theorem routeDistance_open_path_sum (origin : Pt) (stops : List Pt) :
    routeDistance origin stops
        = ((((origin :: stops).zip stops).map fun pq => haversine pq.1 pq.2).sum)
      ∧ routeDistance origin [] = 0 := by
  refine ⟨?_, rfl⟩
  induction stops generalizing origin with
  | nil => simp [routeDistance]
  | cons p ps ih =>
    simp only [routeDistance, List.zip_cons_cons, List.map_cons, List.sum_cons]
    rw [ih p]

/-- Claim C2: the 2-opt refiner never worsens the one-way path length of
the tour: every accepted move strictly shortens the route, and a tour of
fewer than 3 stops is returned unchanged. -/
theorem twoOpt_route_not_worse (origin : Pt) (tour : List Pt) :
    routeDistance origin (twoOpt origin tour) ≤ routeDistance origin tour := by
  rw [twoOpt]
  by_cases h : tour.length < 3
  · rw [if_pos h]
  · rw [if_neg h]
    exact twoOptLoop_rd_le origin tour

/-- Claim C3: `optimizeRoute` (nearest-neighbor construction followed by
2-opt refinement) returns a permutation of its input stop list: same
multiset, same count, nothing dropped or duplicated. -/
theorem optimizeRoute_permutation (origin : Pt) (stops : List Pt) :
    List.Perm (optimizeRoute origin stops) stops := by
  rw [optimizeRoute]
  by_cases h : stops.length < 2
  · rw [if_pos h]
  · rw [if_neg h]
    exact (twoOpt_perm origin (nearestNeighbor origin stops)).trans
      (nearestNeighbor_perm origin stops)

/-- Claim C6: the 2-opt improving-move loop terminates on every input:
for every origin and tour some finite fuel makes the fuel-indexed mirror
of the `while (improved)` loop finish, and it finishes with the value of
`twoOpt`. -/
theorem twoOpt_terminates (origin : Pt) (stops : List Pt) :
    ∃ n : Nat, twoOptFuel origin n stops = some (twoOpt origin stops) := by
  unfold twoOptFuel twoOpt
  by_cases h : stops.length < 3
  · exact ⟨0, by rw [if_pos h, if_pos h]⟩
  · obtain ⟨n, hn⟩ := twoOptLoop_fuel origin stops
    exact ⟨n, by rw [if_neg h, if_neg h, hn]⟩

theorem bestIdxAux_spec (cur : Pt) :
    ∀ (l : List Pt) (i : Nat) (acc : Nat × ℝ),
      (bestIdxAux cur l i acc = acc ∧
        ∀ j : Nat, j < l.length → acc.2 ≤ haversine cur (l.getD j cur)) ∨
      (∃ j : Nat, j < l.length ∧
        bestIdxAux cur l i acc = (i + j, haversine cur (l.getD j cur)) ∧
        haversine cur (l.getD j cur) < acc.2 ∧
        (∀ j2 : Nat, j2 < l.length →
          haversine cur (l.getD j cur) ≤ haversine cur (l.getD j2 cur)) ∧
        (∀ j2 : Nat, j2 < j →
          haversine cur (l.getD j cur) < haversine cur (l.getD j2 cur))) := by
  intro l
  induction l with
  | nil =>
    intro i acc
    left
    exact ⟨rfl, fun j hj => absurd hj (by simp)⟩
  | cons p ps ih =>
    intro i acc
    simp only [bestIdxAux]
    by_cases h : haversine cur p < acc.2
    · rw [if_pos h]
      rcases ih (i + 1) (i, haversine cur p) with
        ⟨heq, hmin⟩ | ⟨j, hj, heq, hlt, hmin, hearly⟩
      · right
        refine ⟨0, by simp, ?_, ?_, ?_, ?_⟩
        · rw [heq]
          simp
        · simpa using h
        · intro j2 hj2
          cases j2 with
          | zero => simp
          | succ j3 =>
            simp only [List.getD_cons_zero, List.getD_cons_succ]
            exact hmin j3 (by simpa using hj2)
        · intro j2 hj2
          simp at hj2
      · right
        simp only [List.getD_cons_succ] at heq hlt hmin hearly ⊢
        refine ⟨j + 1, by simpa using hj, ?_, ?_, ?_, ?_⟩
        · rw [heq, List.getD_cons_succ]
          refine congrArg (fun n => (n, haversine cur (ps.getD j cur))) ?_
          omega
        · exact lt_trans (by simpa using hlt) h
        · intro j2 hj2
          cases j2 with
          | zero =>
            simp only [List.getD_cons_zero]
            exact le_of_lt (by simpa using hlt)
          | succ j3 =>
            simp only [List.getD_cons_succ]
            exact hmin j3 (by simpa using hj2)
        · intro j2 hj2
          cases j2 with
          | zero =>
            simp only [List.getD_cons_zero]
            exact (by simpa using hlt)
          | succ j3 =>
            simp only [List.getD_cons_succ]
            exact hearly j3 (by omega)
    · rw [if_neg h]
      push_neg at h
      rcases ih (i + 1) acc with
        ⟨heq, hmin⟩ | ⟨j, hj, heq, hlt, hmin, hearly⟩
      · left
        refine ⟨heq, fun j hj => ?_⟩
        cases j with
        | zero => simpa using h
        | succ j3 =>
          simp only [List.getD_cons_succ]
          exact hmin j3 (by simpa using hj)
      · right
        refine ⟨j + 1, by simpa using hj, ?_, ?_, ?_, ?_⟩
        · rw [heq, List.getD_cons_succ]
          refine congrArg (fun n => (n, haversine cur (ps.getD j cur))) ?_
          omega
        · simpa [List.getD_cons_succ] using hlt
        · intro j2 hj2
          cases j2 with
          | zero =>
            simp only [List.getD_cons_succ, List.getD_cons_zero]
            exact le_of_lt (lt_of_lt_of_le hlt h)
          | succ j3 =>
            simp only [List.getD_cons_succ]
            exact hmin j3 (by simpa using hj2)
        · intro j2 hj2
          cases j2 with
          | zero =>
            simp only [List.getD_cons_succ, List.getD_cons_zero]
            exact lt_of_lt_of_le hlt h
          | succ j3 =>
            simp only [List.getD_cons_succ]
            exact hearly j3 (by omega)

theorem nnGo_cons_eq (cur p : Pt) (ps : List Pt) :
    nnGo cur (p :: ps)
      = (p :: ps).getD (bestIdx cur (p :: ps)) cur
          :: nnGo ((p :: ps).getD (bestIdx cur (p :: ps)) cur)
            ((p :: ps).eraseIdx (bestIdx cur (p :: ps))) := by
  have hlt : bestIdx cur (p :: ps) < (p :: ps).length := bestIdx_lt cur _ (by simp)
  have hdef : (p :: ps).getD (bestIdx cur (p :: ps)) p
      = (p :: ps).getD (bestIdx cur (p :: ps)) cur := by
    rw [List.getD_eq_getElem _ _ hlt, List.getD_eq_getElem _ _ hlt]
  conv_lhs => rw [nnGo]
  rw [hdef]

/-- Claim C5: at every selection step of the nearest-neighbor
construction, the stop chosen from the remaining list is one of the
remaining stops with minimum distance from the current position, and it is
strictly closer than every remaining stop of smaller index (so among ties
the earliest original index wins, exactly the JS scan with its strict `<`
update); the step output is that stop followed by the recursion on the
remaining list without it. -/
theorem nearestNeighbor_min_earliest (cur : Pt) (rem : List Pt) (h : rem ≠ []) :
    bestIdx cur rem < rem.length ∧
    (∀ j : Nat, j < rem.length →
      haversine cur (rem.getD (bestIdx cur rem) cur)
        ≤ haversine cur (rem.getD j cur)) ∧
    (∀ j : Nat, j < bestIdx cur rem →
      haversine cur (rem.getD (bestIdx cur rem) cur)
        < haversine cur (rem.getD j cur)) ∧
    nnGo cur rem
      = rem.getD (bestIdx cur rem) cur
          :: nnGo (rem.getD (bestIdx cur rem) cur)
            (rem.eraseIdx (bestIdx cur rem)) := by
  cases rem with
  | nil => exact absurd rfl h
  | cons p ps =>
    refine ⟨bestIdx_lt cur _ (by simp), ?_, ?_, nnGo_cons_eq cur p ps⟩
    all_goals
      rcases bestIdxAux_spec cur ps 1 (0, haversine cur p) with
        ⟨heq, hmin⟩ | ⟨j, hj, heq, hlt, hmin, hearly⟩
    · have hb : bestIdx cur (p :: ps) = 0 := by simp [bestIdx, heq]
      intro j2 hj2
      rw [hb]
      simp only [List.getD_cons_zero]
      cases j2 with
      | zero => simp
      | succ j3 =>
        simp only [List.getD_cons_succ]
        simpa using hmin j3 (by simpa using hj2)
    · have hb : bestIdx cur (p :: ps) = j + 1 := by
        simp only [bestIdx, heq]
        omega
      intro j2 hj2
      rw [hb]
      simp only [List.getD_cons_succ]
      cases j2 with
      | zero =>
        simp only [List.getD_cons_zero]
        exact le_of_lt (by simpa using hlt)
      | succ j3 =>
        simp only [List.getD_cons_succ]
        exact hmin j3 (by simpa using hj2)
    · have hb : bestIdx cur (p :: ps) = 0 := by simp [bestIdx, heq]
      intro j2 hj2
      rw [hb] at hj2
      simp at hj2
    · have hb : bestIdx cur (p :: ps) = j + 1 := by
        simp only [bestIdx, heq]
        omega
      intro j2 hj2
      rw [hb] at hj2
      rw [hb]
      simp only [List.getD_cons_succ]
      cases j2 with
      | zero =>
        simp only [List.getD_cons_zero]
        exact (by simpa using hlt)
      | succ j3 =>
        simp only [List.getD_cons_succ]
        exact hearly j3 (by omega)

theorem nearestNeighbor_min_earliest_witness :
    (([⟨0, 1⟩] : List Pt) ≠ []) ∧
    (bestIdx ⟨0, 0⟩ [⟨0, 1⟩] < ([⟨0, 1⟩] : List Pt).length ∧
      (∀ j : Nat, j < ([⟨0, 1⟩] : List Pt).length →
        haversine ⟨0, 0⟩ (([⟨0, 1⟩] : List Pt).getD (bestIdx ⟨0, 0⟩ [⟨0, 1⟩]) ⟨0, 0⟩)
          ≤ haversine ⟨0, 0⟩ (([⟨0, 1⟩] : List Pt).getD j ⟨0, 0⟩)) ∧
      (∀ j : Nat, j < bestIdx ⟨0, 0⟩ [⟨0, 1⟩] →
        haversine ⟨0, 0⟩ (([⟨0, 1⟩] : List Pt).getD (bestIdx ⟨0, 0⟩ [⟨0, 1⟩]) ⟨0, 0⟩)
          < haversine ⟨0, 0⟩ (([⟨0, 1⟩] : List Pt).getD j ⟨0, 0⟩)) ∧
      nnGo ⟨0, 0⟩ [⟨0, 1⟩]
        = ([⟨0, 1⟩] : List Pt).getD (bestIdx ⟨0, 0⟩ [⟨0, 1⟩]) ⟨0, 0⟩
            :: nnGo (([⟨0, 1⟩] : List Pt).getD (bestIdx ⟨0, 0⟩ [⟨0, 1⟩]) ⟨0, 0⟩)
              (([⟨0, 1⟩] : List Pt).eraseIdx (bestIdx ⟨0, 0⟩ [⟨0, 1⟩]))) :=
  ⟨by simp, nearestNeighbor_min_earliest ⟨0, 0⟩ [⟨0, 1⟩] (by simp)⟩

theorem haversine_equator (x y : ℝ) (h : |y - x| ≤ 180) :
    haversine ⟨0, x⟩ ⟨0, y⟩ = Real.pi * 6371 / 180 * |y - x| := by
  have hpi : (0:ℝ) < Real.pi := Real.pi_pos
  have e1 : haversine ⟨0, x⟩ ⟨0, y⟩
      = 2 * R * Real.arcsin (Real.sqrt
          (Real.sin ((y - x) * Real.pi / 180 / 2)
            * Real.sin ((y - x) * Real.pi / 180 / 2))) := by
    unfold haversine
    dsimp only
    norm_num
  set z := (y - x) * Real.pi / 180 / 2 with hzdef
  have hsq : Real.sqrt (Real.sin z * Real.sin z) = |Real.sin z| := by
    rw [← sq]
    exact Real.sqrt_sq_eq_abs _
  have hzabs : |z| = |y - x| * Real.pi / 360 := by
    rw [hzdef]
    rw [abs_div, abs_div, abs_mul]
    rw [abs_of_pos hpi, abs_of_pos (by norm_num : (0:ℝ) < 180),
      abs_of_pos (by norm_num : (0:ℝ) < 2)]
    ring
  have hzle : |z| ≤ Real.pi / 2 := by
    rw [hzabs]
    have h2 : |y - x| * Real.pi ≤ 180 * Real.pi := by nlinarith [abs_nonneg (y - x)]
    linarith
  have habs_sin : |Real.sin z| = Real.sin |z| := by
    rcases le_or_lt 0 z with hz0 | hz0
    · have hzpi : z ≤ Real.pi := by
        have := abs_of_nonneg hz0
        linarith
      rw [abs_of_nonneg hz0,
        abs_of_nonneg (Real.sin_nonneg_of_nonneg_of_le_pi hz0 hzpi)]
    · have hmpi : -Real.pi ≤ z := by
        have := abs_of_neg hz0
        linarith
      rw [abs_of_neg hz0, Real.sin_neg,
        abs_of_nonpos (Real.sin_nonpos_of_nonnpos_of_neg_pi_le (le_of_lt hz0) hmpi)]
  have harc : Real.arcsin (Real.sin |z|) = |z| :=
    Real.arcsin_sin (by have := abs_nonneg z; linarith) hzle
  rw [e1, hsq, habs_sin, harc, hzabs, R]
  ring

/-- Kilometres per degree of longitude along the equator (≈ 111.19 km). -/
noncomputable def degKm : ℝ := Real.pi * 6371 / 180

theorem degKm_pos : 0 < degKm := by
  rw [degKm]
  positivity

theorem degKm_gt_100 : 100 < degKm := by
  rw [degKm]
  nlinarith [Real.pi_gt_three]

theorem haversine_equator_val (x y c : ℝ) (h1 : |y - x| ≤ 180) (h2 : |y - x| = c) :
    haversine ⟨0, x⟩ ⟨0, y⟩ = degKm * c := by
  rw [haversine_equator x y h1, h2, degKm]

/-- Origin of the concrete 2-opt example: the equator point at longitude 0. -/
def cexO : Pt := ⟨0, 0⟩

/-- Concrete four-stop tour on the equator, longitudes 2, 1, 3, 4.  Its
only interior reversal considered by the code (swapping the two middle
stops) lengthens the route, so `twoOpt` returns it unchanged, while
reversing its first two stops — a move through the edge that leaves the
origin, never scanned by the code — would shorten the route by about
222 km. -/
def cexTour : List Pt := [⟨0, 2⟩, ⟨0, 1⟩, ⟨0, 3⟩, ⟨0, 4⟩]

theorem cex_rd : routeDistance cexO cexTour = degKm * 6 := by
  simp only [cexO, cexTour, routeDistance]
  rw [haversine_equator_val 0 2 2 (by norm_num) (by norm_num),
    haversine_equator_val 2 1 1 (by norm_num) (by norm_num),
    haversine_equator_val 1 3 2 (by norm_num) (by norm_num),
    haversine_equator_val 3 4 1 (by norm_num) (by norm_num)]
  ring

theorem cex_rd2 :
    routeDistance cexO [⟨0, 2⟩, ⟨0, 3⟩, ⟨0, 1⟩, ⟨0, 4⟩] = degKm * 8 := by
  simp only [cexO, routeDistance]
  rw [haversine_equator_val 0 2 2 (by norm_num) (by norm_num),
    haversine_equator_val 2 3 1 (by norm_num) (by norm_num),
    haversine_equator_val 3 1 2 (by norm_num) (by norm_num),
    haversine_equator_val 1 4 3 (by norm_num) (by norm_num)]
  ring

theorem cex_rs01 : reverseSeg cexTour 0 1 = cexTour := by
  simp [reverseSeg, cexTour]

theorem cex_rs02 : reverseSeg cexTour 0 2 = [⟨0, 2⟩, ⟨0, 3⟩, ⟨0, 1⟩, ⟨0, 4⟩] := by
  simp [reverseSeg, cexTour]

theorem cex_rs12 : reverseSeg cexTour 1 2 = cexTour := by
  simp [reverseSeg, cexTour]

theorem cex_passK03 : passK cexO cexTour 0 3 false = (cexTour, false) := by
  rw [passK, dif_neg (by norm_num [cexTour] : ¬ (3 < cexTour.length - 1))]

theorem cex_passK02 : passK cexO cexTour 0 2 false = (cexTour, false) := by
  rw [passK, dif_pos (by norm_num [cexTour] : 2 < cexTour.length - 1), cex_rs02]
  have hno : ¬ (routeDistance cexO [⟨0, 2⟩, ⟨0, 3⟩, ⟨0, 1⟩, ⟨0, 4⟩] + 1e-9
      < routeDistance cexO cexTour) := by
    rw [cex_rd, cex_rd2]
    intro hcon
    nlinarith [degKm_pos]
  rw [if_neg hno]
  exact cex_passK03

theorem cex_passK01 : passK cexO cexTour 0 1 false = (cexTour, false) := by
  rw [passK, dif_pos (by norm_num [cexTour] : 1 < cexTour.length - 1), cex_rs01]
  have hno : ¬ (routeDistance cexO cexTour + 1e-9 < routeDistance cexO cexTour) := by
    intro hcon
    have : (0:ℝ) < 1e-9 := by norm_num
    linarith
  rw [if_neg hno]
  exact cex_passK02

theorem cex_passK13 : passK cexO cexTour 1 3 false = (cexTour, false) := by
  rw [passK, dif_neg (by norm_num [cexTour] : ¬ (3 < cexTour.length - 1))]

theorem cex_passK12 : passK cexO cexTour 1 2 false = (cexTour, false) := by
  rw [passK, dif_pos (by norm_num [cexTour] : 2 < cexTour.length - 1), cex_rs12]
  have hno : ¬ (routeDistance cexO cexTour + 1e-9 < routeDistance cexO cexTour) := by
    intro hcon
    have : (0:ℝ) < 1e-9 := by norm_num
    linarith
  rw [if_neg hno]
  exact cex_passK13

theorem cex_passI2 : passI cexO cexTour 2 false = (cexTour, false) := by
  rw [passI, dif_neg (by norm_num [cexTour] : ¬ (2 < cexTour.length - 2))]

theorem cex_passI1 : passI cexO cexTour 1 false = (cexTour, false) := by
  rw [passI, dif_pos (by norm_num [cexTour] : 1 < cexTour.length - 2), cex_passK12]
  exact cex_passI2

theorem cex_passI0 : passI cexO cexTour 0 false = (cexTour, false) := by
  rw [passI, dif_pos (by norm_num [cexTour] : 0 < cexTour.length - 2), cex_passK01]
  exact cex_passI1

theorem cex_twoOpt : twoOpt cexO cexTour = cexTour := by
  rw [twoOpt, if_neg (by norm_num [cexTour] : ¬ (cexTour.length < 3)),
    twoOptLoop, cex_passI0]
  simp

/-- Modelled from the spec (section 4.3): the j-th point of the path
`origin, tour[0], …, tour[n-1]`. -/
noncomputable def pathGet (origin : Pt) (tour : List Pt) (j : Nat) : Pt :=
  (origin :: tour).getD j origin

/-- Modelled from the spec (section 4.3): the length delta the spec
assigns to the edge pair `(i, i+1), (k, k+1)` of that path,
`[d(path[i],path[k]) + d(path[i+1],path[k+1])] -
 [d(path[i],path[i+1]) + d(path[k],path[k+1])]`. -/
noncomputable def specDelta (origin : Pt) (tour : List Pt) (i k : Nat) : ℝ :=
  haversine (pathGet origin tour i) (pathGet origin tour k)
    + haversine (pathGet origin tour (i + 1)) (pathGet origin tour (k + 1))
    - (haversine (pathGet origin tour i) (pathGet origin tour (i + 1))
        + haversine (pathGet origin tour k) (pathGet origin tour (k + 1)))

theorem cex_specDelta : specDelta cexO cexTour 0 2 = -(degKm * 2) := by
  rw [specDelta]
  rw [show pathGet cexO cexTour 0 = (⟨0, 0⟩ : Pt) from rfl,
    show pathGet cexO cexTour 1 = (⟨0, 2⟩ : Pt) from rfl,
    show pathGet cexO cexTour 2 = (⟨0, 1⟩ : Pt) from rfl,
    show pathGet cexO cexTour 3 = (⟨0, 3⟩ : Pt) from rfl]
  rw [haversine_equator_val 0 1 1 (by norm_num) (by norm_num),
    haversine_equator_val 2 3 1 (by norm_num) (by norm_num),
    haversine_equator_val 0 2 2 (by norm_num) (by norm_num),
    haversine_equator_val 1 3 2 (by norm_num) (by norm_num)]
  ring

/-- Claim C4 as stated is false on the code.  At this concrete equator
input `twoOpt` terminates with the tour unchanged, yet the path edge pair
`(0, 1), (2, 3)` — with `0 ≤ i < k ≤ n - 2` as the claim demands, and
involving the edge that leaves the origin — has a delta of about -222 km,
far below -1e-4 km.  The source never scans the origin edge (its
reversals only touch `best.slice(i+1, k+1)`, path edge pairs whose first
edge index is at least 1), and its acceptance threshold is 1e-9 km on the
whole-route length in part_001 (1e-3 km on the 4-edge delta in part_004),
not 1e-4 km. -/
theorem twoOpt_not_spec_local_optimal :
    twoOpt cexO cexTour = cexTour ∧
    0 < 2 ∧ 2 ≤ cexTour.length - 2 ∧
    specDelta cexO cexTour 0 2 < -(1e-4) := by
  refine ⟨cex_twoOpt, by norm_num, by norm_num [cexTour], ?_⟩
  rw [cex_specDelta]
  nlinarith [degKm_gt_100]

/-- Claim C4 amended: the refiner applies a reversal exactly when it
shortens the whole route by more than 1e-9 km (the code compares full
route lengths; by symmetry of the metric that equals the 4-edge delta
test with ε = 1e-9 km, not 1e-4 km), and when it terminates no reversal
in the range the code scans — interior stop indices `i < n-2`,
`i < k ≤ n-2`, i.e. path edge pairs whose first edge is not the origin
edge — improves the route by more than 1e-9 km. -/
theorem twoOpt_local_optimal_code_range (origin : Pt) (stops : List Pt) (i k : Nat)
    (hi : i < (twoOpt origin stops).length - 2)
    (hik : i + 1 ≤ k)
    (hk : k < (twoOpt origin stops).length - 1) :
    routeDistance origin (twoOpt origin stops)
      ≤ routeDistance origin (reverseSeg (twoOpt origin stops) i k) + 1e-9 := by
  by_cases h3 : stops.length < 3
  · rw [twoOpt, if_pos h3] at hi
    omega
  · have hout : twoOpt origin stops = twoOptLoop origin stops := by
      rw [twoOpt, if_neg h3]
    rw [hout] at hi hk ⊢
    have hfix := twoOptLoop_fix origin stops
    have hflag : (passI origin (twoOptLoop origin stops) 0 false).2 = false := by
      rw [hfix]
    obtain ⟨_, hrow⟩ :=
      passI_noimp origin (twoOptLoop origin stops) 0 false rfl hflag
    have hno := hrow i k (by omega) hi hik hk
    linarith

theorem twoOpt_local_optimal_code_range_witness :
    (0 < (twoOpt cexO cexTour).length - 2 ∧ 0 + 1 ≤ 1 ∧
      1 < (twoOpt cexO cexTour).length - 1) ∧
    routeDistance cexO (twoOpt cexO cexTour)
      ≤ routeDistance cexO (reverseSeg (twoOpt cexO cexTour) 0 1) + 1e-9 :=
  ⟨⟨by rw [twoOpt_length]; norm_num [cexTour], by norm_num,
      by rw [twoOpt_length]; norm_num [cexTour]⟩,
    twoOpt_local_optimal_code_range cexO cexTour 0 1
      (by rw [twoOpt_length]; norm_num [cexTour]) (by norm_num)
      (by rw [twoOpt_length]; norm_num [cexTour])⟩

/-- Waypoint cap of the Google Maps link builder (`googleMapsDirLink`,
part_001 line 19): `const MAX_WP = 9`. -/
def MAX_WP : Nat := 9

/-- The batches the app sends to the navigation provider.
`googleMapsDirLink` (part_001 lines 18-30) keeps only
`stops.slice(0, MAX_WP)` and returns no link for an empty list;
`openInGoogleMaps` (part_001 lines 255-259, src/src/App.jsx lines
697-703) issues exactly one request with that slice.  No code emits
further batches for the stops beyond the ninth. -/
def mapsBatches {α : Type} (tour : List α) : List (List α) :=
  if tour.isEmpty then [] else [tour.take MAX_WP]

/-- Claim C1 as stated is false on the code: with ten stops, the single
batch the app produces holds only the first nine, so the concatenation of
all batches is not the tour — the tenth stop is dropped, not batched. -/
theorem mapsBatches_join_ne_tour :
    (mapsBatches (List.range 10)).flatten ≠ List.range 10 := by decide

/-- Claim C1 amended: concatenating the batches, in order, yields the
first `MAX_WP = 9` stops of the tour — hence exactly the tour when it has
at most 9 stops; the batcher is a single fixed-size truncation, there is
no `maxPointsPerRequest` parameter, and stops beyond the ninth are
dropped. -/
theorem mapsBatches_join {α : Type} (tour : List α) :
    (mapsBatches tour).flatten = tour.take MAX_WP ∧
    (tour.length ≤ MAX_WP → (mapsBatches tour).flatten = tour) := by
  have h1 : (mapsBatches tour).flatten = tour.take MAX_WP := by
    cases tour with
    | nil => simp [mapsBatches]
    | cons x xs => simp [mapsBatches]
  refine ⟨h1, fun hlen => ?_⟩
  rw [h1]
  exact List.take_of_length_le hlen

/-- A geocoder result (`geocodeAddress`, part_001 lines 6-16): latitude,
longitude and display name parsed from the Nominatim response. -/
structure GeoHit where
  lat : ℝ
  lon : ℝ
  displayName : String

/-- A stored package entry as `addPackage` builds it (part_001 lines
232-238); the random `id` is not modelled. -/
structure Item where
  name : String
  address : String
  lat : ℝ
  lon : ℝ
  displayName : String

/-- JS `String.prototype.trim`: strip leading and trailing whitespace.
(Lean's own `String.trim` is extensionally the same function but is
defined through byte-position recursion that concrete evaluation cannot
unfold, so the JS call is modelled structurally.) -/
def jsTrim (s : String) : String :=
  ⟨((s.data.dropWhile Char.isWhitespace).reverse.dropWhile Char.isWhitespace).reverse⟩

/-- Source part_001 lines 227-245 (`addPackage`), data path only: a blank
address is rejected with a message (`none` here); a geocoder failure is
caught and reported (`none`); otherwise an item is appended to the
package list taking `lat` and `lon` from the geocoder hit verbatim.
There is no coordinate range check on this path, nor anywhere else in the
sources. -/
def addPackage (pkgName pkgAddress : String) (geocoded : Option GeoHit)
    (packages : List Item) : Option (List Item) :=
  if jsTrim pkgAddress = "" then none
  else
    match geocoded with
    | none => none
    | some hit =>
        some (packages ++
          [{ name := if jsTrim pkgName = "" then "(Sin nombre)" else jsTrim pkgName,
             address := jsTrim pkgAddress,
             lat := hit.lat, lon := hit.lon,
             displayName := hit.displayName }])

/-- Claim C9 as stated is false on the code: a stop whose geocoded
coordinates lie far outside the valid ranges (latitude 91, longitude 181)
is constructed and accepted into the package list — construction does not
fail, nothing is clamped, no InvalidCoordinate error exists anywhere in
the sources. -/
theorem addPackage_accepts_out_of_range :
    addPackage "n" "Calle Mayor 1" (some ⟨91, 181, "x"⟩) []
      = some [{ name := "n", address := "Calle Mayor 1", lat := 91, lon := 181,
                displayName := "x" }] ∧
    ¬ ((91:ℝ) ≤ 90) ∧ ¬ ((181:ℝ) ≤ 180) := by
  refine ⟨?_, by norm_num, by norm_num⟩
  rw [addPackage, if_neg (by decide : ¬ (jsTrim "Calle Mayor 1" = ""))]
  rw [if_neg (by decide : ¬ (jsTrim "n" = ""))]
  rw [show jsTrim "Calle Mayor 1" = "Calle Mayor 1" from by decide,
    show jsTrim "n" = "n" from by decide]
  rfl

/-- Claim C9 amended: `addPackage` validates only that the address is
non-blank and that geocoding succeeded.  Whatever latitude and longitude
the geocoder returns — in range or not — the stop is constructed and
appended with those values unchanged; construction never fails on a
coordinate and never clamps one. -/
theorem addPackage_no_coordinate_validation
    (pkgName pkgAddress : String) (hit : GeoHit) (packages : List Item)
    (haddr : jsTrim pkgAddress ≠ "") :
    addPackage pkgName pkgAddress (some hit) packages
      = some (packages ++
          [{ name := if jsTrim pkgName = "" then "(Sin nombre)" else jsTrim pkgName,
             address := jsTrim pkgAddress, lat := hit.lat, lon := hit.lon,
             displayName := hit.displayName }]) := by
  rw [addPackage, if_neg haddr]

theorem addPackage_no_coordinate_validation_witness :
    (jsTrim "Calle 2" ≠ "") ∧
    addPackage "" "Calle 2" (some ⟨200, -999, "y"⟩) []
      = some ([] ++
          [{ name := if jsTrim "" = "" then "(Sin nombre)" else jsTrim "",
             address := jsTrim "Calle 2", lat := (200:ℝ), lon := (-999:ℝ),
             displayName := "y" }]) :=
  ⟨by decide,
    addPackage_no_coordinate_validation "" "Calle 2" ⟨200, -999, "y"⟩ [] (by decide)⟩

/-- Array store for the frame-condition claim: JS arrays live behind
references (indices into the store).  Reading an unallocated reference
gives the empty array; the loops below only read references they were
given or allocated. -/
def hread (h : List (List Pt)) (r : Nat) : List Pt := h.getD r []

/-- In-place array write (the effect of `splice` on the array behind
reference `r`). -/
def hwrite (h : List (List Pt)) (r : Nat) (v : List Pt) : List (List Pt) :=
  h.set r v

/-- Allocate a fresh array (the effect of `slice()`, `concat`, a literal
`[]`): the new reference is the previous store size. -/
def halloc (h : List (List Pt)) (v : List Pt) : List (List Pt) × Nat :=
  (h ++ [v], h.length)

theorem hread_ne_nil_lt (h : List (List Pt)) (r : Nat) (hne : hread h r ≠ []) :
    r < h.length := by
  by_contra hc
  push_neg at hc
  rw [hread, List.getD_eq_getElem?_getD, List.getElem?_eq_none (by omega)] at hne
  simp at hne

theorem hread_hwrite_self (h : List (List Pt)) (r : Nat) (v : List Pt)
    (hr : r < h.length) : hread (hwrite h r v) r = v := by
  rw [hread, hwrite, List.getD_eq_getElem?_getD, List.getElem?_set_self']
  simp [hr]

theorem hread_hwrite_ne (h : List (List Pt)) (r r2 : Nat) (v : List Pt)
    (hne : r ≠ r2) : hread (hwrite h r v) r2 = hread h r2 := by
  rw [hread, hwrite, List.getD_eq_getElem?_getD, List.getElem?_set_ne hne,
    ← List.getD_eq_getElem?_getD, hread]

theorem hread_append_lt (h : List (List Pt)) (v : List Pt) (r : Nat)
    (hr : r < h.length) : hread (h ++ [v]) r = hread h r := by
  rw [hread, List.getD_eq_getElem?_getD, List.getElem?_append_left hr,
    ← List.getD_eq_getElem?_getD, hread]

theorem nnHeapGo_dec (cur : Pt) (h : List (List Pt)) (rem : Nat)
    (hm : ¬ ((hread h rem).length = 0)) :
    (hread (hwrite h rem
        ((hread h rem).eraseIdx (bestIdx cur (hread h rem)))) rem).length
      < (hread h rem).length := by
  have hne : hread h rem ≠ [] := by
    intro hemp
    rw [hemp] at hm
    simp at hm
  have hr : rem < h.length := hread_ne_nil_lt h rem hne
  rw [hread_hwrite_self h rem _ hr, List.length_eraseIdx]
  have hlt := bestIdx_lt cur (hread h rem) hne
  simp only [hlt, if_pos]
  omega

/-- The `nearestNeighbor` loop (part_001 lines 109-122) with the array
store explicit: `remaining` is an array reference, and
`remaining.splice(bestIdx, 1)` is the one in-place array write in the
whole engine — it targets that reference only.  The output collects the
chosen stops (`ordered` is a fresh local array, returned by value). -/
noncomputable def nnHeapGo (cur : Pt) (h : List (List Pt)) (rem : Nat) :
    List (List Pt) × List Pt :=
  if hm : (hread h rem).length = 0 then (h, [])
  else
    ((nnHeapGo ((hread h rem).getD (bestIdx cur (hread h rem)) cur)
        (hwrite h rem ((hread h rem).eraseIdx (bestIdx cur (hread h rem)))) rem).1,
      (hread h rem).getD (bestIdx cur (hread h rem)) cur ::
        (nnHeapGo ((hread h rem).getD (bestIdx cur (hread h rem)) cur)
          (hwrite h rem ((hread h rem).eraseIdx (bestIdx cur (hread h rem)))) rem).2)
termination_by (hread h rem).length
decreasing_by
  all_goals (apply nnHeapGo_dec; assumption)

theorem nnHeapGo_frame (r : Nat) :
    ∀ (cur : Pt) (h : List (List Pt)) (rem : Nat), r ≠ rem →
      hread (nnHeapGo cur h rem).1 r = hread h r := by
  intro cur h rem
  induction cur, h, rem using nnHeapGo.induct with
  | case1 cur h rem hm =>
    intro hne
    rw [nnHeapGo, dif_pos hm]
  | case2 cur h rem hm ih =>
    intro hne
    rw [nnHeapGo, dif_neg hm]
    dsimp only
    rw [ih hne, hread_hwrite_ne h rem r _ (Ne.symm hne)]

/-- `nearestNeighbor` with the array store explicit:
`const remaining = stops.slice()` allocates the copy, and the loop
splices only that fresh reference. -/
noncomputable def nearestNeighborHeap (origin : Pt) (h : List (List Pt))
    (stops : Nat) : List (List Pt) × List Pt :=
  nnHeapGo origin (halloc h (hread h stops)).1 (halloc h (hread h stops)).2

/-- `routeDistance` with the array store explicit: the function only
reads its argument array (a `for … of` iteration and `haversine` calls);
no array method that writes is used, so the store is unchanged. -/
noncomputable def routeDistanceHeap (origin : Pt) (h : List (List Pt))
    (stops : Nat) : List (List Pt) × ℝ :=
  (h, routeDistance origin (hread h stops))

/-- `twoOpt` with the array store explicit: `let best = stops.slice()`
allocates a copy; afterwards every step builds fresh arrays with `slice`,
`concat` and `reverse` (the reverse acts on the fresh slice) and rebinds
the local variable `best` — no write to any pre-existing reference
occurs, so beyond allocations the store is untouched and the loop is the
pure `twoOpt` of the copied value. -/
noncomputable def twoOptHeap (origin : Pt) (h : List (List Pt)) (stops : Nat) :
    List (List Pt) × List Pt :=
  ((halloc h (hread h stops)).1, twoOpt origin (hread h stops))

/-- `optimizeRoute` with the array store explicit (part_001 lines
148-153): fewer than 2 stops are returned as a fresh copy; otherwise
`nearestNeighbor` runs against the caller's array (copying it first) and
`twoOpt` runs on the nearest-neighbor output, an array the caller never
shared. -/
noncomputable def optimizeRouteHeap (origin : Pt) (h : List (List Pt))
    (stops : Nat) : List (List Pt) × List Pt :=
  if (hread h stops).length < 2 then
    ((halloc h (hread h stops)).1, hread h stops)
  else
    ((nearestNeighborHeap origin h stops).1,
      twoOpt origin (nearestNeighborHeap origin h stops).2)

/-- Claim C10: none of the four engine functions mutates the caller's
stops array — after each call the array behind the caller's reference
holds exactly what it held before.  (`nearestNeighbor` splices only its
fresh copy; `twoOpt`, `routeDistance` and `optimizeRoute` never write to
a pre-existing reference at all.) -/
theorem engine_preserves_caller_array (origin : Pt) (h : List (List Pt))
    (stops : Nat) (hs : stops < h.length) :
    hread (nearestNeighborHeap origin h stops).1 stops = hread h stops ∧
    hread (twoOptHeap origin h stops).1 stops = hread h stops ∧
    hread (routeDistanceHeap origin h stops).1 stops = hread h stops ∧
    hread (optimizeRouteHeap origin h stops).1 stops = hread h stops := by
  have hnn : hread (nearestNeighborHeap origin h stops).1 stops = hread h stops := by
    rw [nearestNeighborHeap]
    rw [nnHeapGo_frame stops origin (halloc h (hread h stops)).1
      (halloc h (hread h stops)).2 (by simp [halloc]; omega)]
    exact hread_append_lt h _ stops hs
  have htw : hread (twoOptHeap origin h stops).1 stops = hread h stops := by
    rw [twoOptHeap]
    exact hread_append_lt h _ stops hs
  refine ⟨hnn, htw, rfl, ?_⟩
  rw [optimizeRouteHeap]
  by_cases hc : (hread h stops).length < 2
  · rw [if_pos hc]
    exact hread_append_lt h _ stops hs
  · rw [if_neg hc]
    exact hnn

theorem engine_preserves_caller_array_witness :
    ((0:Nat) < ([[⟨0, 1⟩]] : List (List Pt)).length) ∧
    (hread (nearestNeighborHeap ⟨0, 0⟩ [[⟨0, 1⟩]] 0).1 0 = hread [[⟨0, 1⟩]] 0 ∧
      hread (twoOptHeap ⟨0, 0⟩ [[⟨0, 1⟩]] 0).1 0 = hread [[⟨0, 1⟩]] 0 ∧
      hread (routeDistanceHeap ⟨0, 0⟩ [[⟨0, 1⟩]] 0).1 0 = hread [[⟨0, 1⟩]] 0 ∧
      hread (optimizeRouteHeap ⟨0, 0⟩ [[⟨0, 1⟩]] 0).1 0 = hread [[⟨0, 1⟩]] 0) :=
  ⟨by simp, engine_preserves_caller_array ⟨0, 0⟩ [[⟨0, 1⟩]] 0 (by simp)⟩
